import Mathlib

/-!
Verification of the allocation engine of the expense-calculator demo
(`src/main.py`, function `compute_allocations`, lines 108–155, together with
the helpers `cents` and `money`, lines 105–106).

The engine is a pure computation over integer cents.  We embed it shallowly:

* `Participant`s are their integer identifiers (`ℕ`); the caller supplies
  them as an ordered, deduplicated sequence (spec §6) — the Python code reads
  them from the database, where `id` is a primary key.
* `Pledge` is the record consumed by the engine (`participant_id`, `type`,
  `value_type`, `value`, `active`).  Decimal values (`Numeric(12,2)`) are
  embedded as rationals.
* The mutable dict `targets` (insertion order = participant order) is
  embedded as an association list `Targets := List (ℕ × ℤ)` in participant
  order; dict lookup/update become `lookupT`/`updateT`.
* Python's `round` (banker's rounding, half to even) is embedded as
  `pyRound` on exact rationals; `//` on integers is floor division,
  embedded as `Int.fdiv`.
* A pledge whose `participant_id` is not a key of `targets` makes the Python
  code raise `KeyError`; the embedding returns `Except.error
  (Err.invalidReference _)`.  No other failure exists in the source.
* `sorted(..., key=..., reverse=True)` is a stable descending sort; it is
  embedded as the stable insertion sort `sortDesc`.
* `max(targets, key=targets.get)` returns the first key of maximal value in
  insertion order; it is embedded as `argmaxKey`.

`allocationCents` is the engine in integer cents (phases 1–4 of the source);
`compute_allocations` additionally applies the display conversion `money`,
as the source does in its final line.
-/

namespace ExpenseCalc

/-- `type` column of a pledge: `equal | volunteer_overpay | underpay_bid`. -/
inductive PledgeKind where
  | equal
  | volunteerOverpay
  | underpayBid
deriving DecidableEq

/-- `value_type` column of a pledge: `percent | fixed` (`none` for equal). -/
inductive ValueType where
  | percent
  | fixed
deriving DecidableEq

/-- A pledge record as consumed by the engine (`src/main.py` lines 62–71). -/
structure Pledge where
  participant_id : ℕ
  kind : PledgeKind
  value_type : Option ValueType
  value : ℚ
  active : Bool
deriving DecidableEq

/-- The only failure of the engine: `targets[pledge.participant_id]` raises
`KeyError` in Python when the pledge references an unknown participant. -/
inductive Err where
  | invalidReference (pid : ℕ)
deriving DecidableEq

instance {ε α : Type} [DecidableEq ε] [DecidableEq α] : DecidableEq (Except ε α) := fun a b =>
  match a, b with
  | .ok x, .ok y =>
    if h : x = y then .isTrue (by rw [h]) else .isFalse (fun hc => by cases hc; exact h rfl)
  | .error x, .error y =>
    if h : x = y then .isTrue (by rw [h]) else .isFalse (fun hc => by cases hc; exact h rfl)
  | .ok _, .error _ => .isFalse (fun hc => Except.noConfusion hc)
  | .error _, .ok _ => .isFalse (fun hc => Except.noConfusion hc)

/-- `⌊q⌋` computed explicitly (`Rat.den` is positive, so `Int.fdiv` floors). -/
def ratFloor (q : ℚ) : ℤ := Int.fdiv q.num q.den

/-- Python 3 `round` to an integer: nearest integer, halves to even. -/
def pyRound (q : ℚ) : ℤ :=
  let f := ratFloor q
  if q - f < 1/2 then f
  else if 1/2 < q - f then f + 1
  else if f % 2 = 0 then f else f + 1

/-- `cents(d) = int(round(float(d) * 100))` (`src/main.py` line 105). -/
def cents (q : ℚ) : ℤ := pyRound (q * 100)

/-- `money(c) = round(c / 100.0 + 1e-9, 2)` (`src/main.py` line 106): for an
integer count of cents this is exactly `c / 100`. -/
def money (c : ℤ) : ℚ := (c : ℚ) / 100

/-- The engine-internal target map: participant id → integer cents, in
participant (insertion) order, embedding the Python dict `targets`. -/
abbrev Targets := List (ℕ × ℤ)

/-- Dict lookup `targets[pid]` (first entry with the given key). -/
def lookupT : Targets → ℕ → Option ℤ
  | [], _ => none
  | e :: ts, pid => if e.1 = pid then some e.2 else lookupT ts pid

/-- Dict update `targets[pid] = f(targets[pid])` (keys are unique). -/
def updateT (ts : Targets) (pid : ℕ) (f : ℤ → ℤ) : Targets :=
  ts.map fun e => if e.1 = pid then (e.1, f e.2) else e

/-- The keys of the target map, in order. -/
def keysT (ts : Targets) : List ℕ := ts.map Prod.fst

/-- `sum(targets.values())`. -/
def sumT (ts : Targets) : ℤ := (ts.map Prod.snd).sum

/-- Phase 1 (`src/main.py` lines 114–117): every participant starts at
`base`; the first `r` participants get one extra cent
(`for p in parts[:remainder]: targets[p.id] += 1`, with distinct ids). -/
def initTargets : List ℕ → ℤ → ℕ → Targets
  | [], _, _ => []
  | p :: ps, base, 0 => (p, base) :: initTargets ps base 0
  | p :: ps, base, r + 1 => (p, base + 1) :: initTargets ps base r

/-- Phase 2, one pledge (`src/main.py` lines 121–127): additive amount for a
volunteer-overpay pledge, applied to the current target. -/
def applyOverpay (ts : Targets) (v : Pledge) : Except Err Targets :=
  match lookupT ts v.participant_id with
  | none => .error (.invalidReference v.participant_id)
  | some t =>
    let add : ℤ :=
      match v.value_type with
      | some ValueType.percent => pyRound ((t : ℚ) * v.value / 100)
      | some ValueType.fixed => cents v.value
      | none => 0
    .ok (updateT ts v.participant_id fun x => x + add)

/-- Phase 3 shortfall (`src/main.py` lines 132–136): `round(target*value/100)`
for percent, `min(cents(value), target)` for fixed. -/
def bidShortfall (t : ℤ) (b : Pledge) : ℤ :=
  match b.value_type with
  | some ValueType.percent => pyRound ((t : ℚ) * b.value / 100)
  | some ValueType.fixed => min (cents b.value) t
  | none => 0

/-- `others = [pid for pid in targets if pid != b.participant_id]`
(`src/main.py` line 140), keeping each entry's current target. -/
def othersOf (ts1 : Targets) (pid : ℕ) : Targets :=
  ts1.filter fun e => decide (e.1 ≠ pid)

/-- `denom = sum(targets[pid] for pid in others) or 1` (line 141). -/
def denomOf (o : Targets) : ℤ :=
  if sumT o = 0 then 1 else sumT o

/-- `distributed = sum(add_map.values())` with
`add_map[pid] = (shortfall * targets[pid]) // denom` (lines 142–143). -/
def distributedOf (o : Targets) (s : ℤ) : ℤ :=
  (o.map fun e => Int.fdiv (s * e.2) (denomOf o)).sum

/-- Stable insertion of an entry into a list sorted by descending target:
the new (originally earlier) entry goes before every entry with a
target `≤` its own. -/
def insertDesc (e : ℕ × ℤ) : Targets → Targets
  | [] => [e]
  | x :: xs => if x.2 ≤ e.2 then e :: x :: xs else x :: insertDesc e xs

/-- `sorted(others, key=lambda x: targets[x], reverse=True)` (line 145):
stable sort by descending current target. -/
def sortDesc : Targets → Targets
  | [] => []
  | e :: xs => insertDesc e (sortDesc xs)

/-- The participants receiving one leftover cent each (line 145):
the first `shortfall - distributed` entries of the descending-sorted others. -/
def bonusOf (ts1 : Targets) (pid : ℕ) (s : ℤ) : List ℕ :=
  ((sortDesc (othersOf ts1 pid)).take
    (s - distributedOf (othersOf ts1 pid) s).toNat).map Prod.fst

/-- Lines 140–148: redistribute the shortfall `s` of bidder `pid` across the
other participants proportionally to their current targets, with the
floor-division leftover going one cent at a time to the largest targets. -/
def redistribute (ts1 : Targets) (pid : ℕ) (s : ℤ) : Targets :=
  ts1.map fun e =>
    if e.1 = pid then e
    else (e.1, e.2 + Int.fdiv (s * e.2) (denomOf (othersOf ts1 pid)) +
      if e.1 ∈ bonusOf ts1 pid s then 1 else 0)

/-- Phase 3, one pledge (`src/main.py` lines 131–148): compute the shortfall,
skip if non-positive, else subtract it from the bidder and redistribute. -/
def applyBid (ts : Targets) (b : Pledge) : Except Err Targets :=
  match lookupT ts b.participant_id with
  | none => .error (.invalidReference b.participant_id)
  | some t =>
    let s := bidShortfall t b
    if s ≤ 0 then .ok ts
    else .ok (redistribute (updateT ts b.participant_id fun x => x - s) b.participant_id s)

/-- `max(targets, key=targets.get)` (line 153): the first key of maximal
value in insertion order (Python `max` keeps the first maximum). -/
def argmaxKey : Targets → ℕ
  | [] => 0
  | e :: ts => (ts.foldl (fun best x => if best.2 < x.2 then x else best) e).1

/-- Phase 4 (`src/main.py` lines 151–153): assign the whole gap, when
non-zero, to the participant currently holding the largest target. -/
def finalCorrect (ts : Targets) (gap : ℤ) : Targets :=
  if gap = 0 then ts else updateT ts (argmaxKey ts) fun x => x + gap

/-- `db.query(Pledge).filter_by(event_id=…, type="volunteer_overpay",
active=True)` (line 120): the active volunteer-overpay pledges, in input
order. -/
def vopsOf (pledges : List Pledge) : List Pledge :=
  pledges.filter fun p => decide (p.kind = PledgeKind.volunteerOverpay) && p.active

/-- `db.query(Pledge).filter_by(event_id=…, type="underpay_bid",
active=True)` (line 130): the active underpay bids, in input order. -/
def bidsOf (pledges : List Pledge) : List Pledge :=
  pledges.filter fun p => decide (p.kind = PledgeKind.underpayBid) && p.active

/-- Phases 1–4 for a non-empty participant list, over the total `T` already
converted to cents: equal base split with remainder cents to the first
participants, then overpay pledges, then underpay bids (each propagating
`KeyError`), then the final gap correction. -/
def allocPhases (T : ℤ) (parts : List ℕ) (pledges : List Pledge) :
    Except Err Targets :=
  match (vopsOf pledges).foldlM applyOverpay
      (initTargets parts (Int.fdiv T parts.length)
        ((T - Int.fdiv T parts.length * parts.length).toNat)) with
  | .error e => .error e
  | .ok ts1 =>
    match (bidsOf pledges).foldlM applyBid ts1 with
    | .error e => .error e
    | .ok ts2 => .ok (finalCorrect ts2 (T - sumT ts2))

/-- `compute_allocations` in integer cents (`src/main.py` lines 108–153):
the early return `{}` for zero participants (line 111), then phases 1–4. -/
def allocationCents (total : ℚ) (parts : List ℕ) (pledges : List Pledge) :
    Except Err Targets :=
  match parts with
  | [] => .ok []
  | _ :: _ => allocPhases (cents total) parts pledges

/-- The full source function, including the final display conversion
`{pid: money(amt) for pid, amt in targets.items()}` (line 155). -/
def compute_allocations (total : ℚ) (parts : List ℕ) (pledges : List Pledge) :
    Except Err (List (ℕ × ℚ)) :=
  (allocationCents total parts pledges).map fun ts =>
    ts.map fun e => (e.1, money e.2)

/-! ### Basic lemmas about the target map -/

theorem keysT_cons (e : ℕ × ℤ) (ts : Targets) : keysT (e :: ts) = e.1 :: keysT ts := rfl

theorem sumT_nil : sumT [] = 0 := rfl

theorem sumT_cons (e : ℕ × ℤ) (ts : Targets) : sumT (e :: ts) = e.2 + sumT ts := rfl

theorem keysT_map_of_fst (ts : Targets) (g : ℕ × ℤ → ℕ × ℤ) (h : ∀ e, (g e).1 = e.1) :
    keysT (ts.map g) = keysT ts := by
  induction ts with
  | nil => rfl
  | cons e ts ih => simp only [List.map_cons, keysT_cons, h e, ih]

theorem keysT_updateT (ts : Targets) (pid : ℕ) (f : ℤ → ℤ) :
    keysT (updateT ts pid f) = keysT ts := by
  refine keysT_map_of_fst ts _ fun e => ?_
  by_cases h : e.1 = pid <;> simp [h]

theorem lookupT_some_of_mem {ts : Targets} {pid : ℕ} (h : pid ∈ keysT ts) :
    ∃ t, lookupT ts pid = some t ∧ (pid, t) ∈ ts := by
  induction ts with
  | nil => simp [keysT] at h
  | cons e ts ih =>
    by_cases he : e.1 = pid
    · refine ⟨e.2, by simp [lookupT, he], ?_⟩
      have : e = (pid, e.2) := by rw [← he]
      rw [← this]; exact List.mem_cons_self e ts
    · have h2 : pid ∈ keysT ts := by
        rcases List.mem_cons.mp h with h1 | h1
        · exact absurd h1.symm he
        · exact h1
      obtain ⟨t, hl, hm⟩ := ih h2
      exact ⟨t, by simp [lookupT, he, hl], List.mem_cons_of_mem e hm⟩

theorem updateT_of_not_mem {ts : Targets} {pid : ℕ} (f : ℤ → ℤ) (h : pid ∉ keysT ts) :
    updateT ts pid f = ts := by
  induction ts with
  | nil => rfl
  | cons e ts ih =>
    have h1 : e.1 ≠ pid := fun hc => h (by simp [keysT, hc])
    have h2 : pid ∉ keysT ts := fun hc => h (List.mem_cons_of_mem _ hc)
    simp only [updateT, List.map_cons, if_neg h1]
    rw [show ts.map _ = updateT ts pid f from rfl, ih h2]

theorem sumT_updateT {ts : Targets} {pid : ℕ} {t : ℤ} (f : ℤ → ℤ)
    (hnd : (keysT ts).Nodup) (hl : lookupT ts pid = some t) :
    sumT (updateT ts pid f) = sumT ts - t + f t := by
  induction ts with
  | nil => simp [lookupT] at hl
  | cons e ts ih =>
    rw [keysT_cons, List.nodup_cons] at hnd
    by_cases he : e.1 = pid
    · rw [lookupT, if_pos he] at hl
      injection hl with ht
      have hnm : pid ∉ keysT ts := he ▸ hnd.1
      simp only [updateT, List.map_cons, if_pos he]
      rw [show ts.map _ = updateT ts pid f from rfl, updateT_of_not_mem f hnm,
        sumT_cons, sumT_cons, ← ht]
      ring
    · rw [lookupT, if_neg he] at hl
      simp only [updateT, List.map_cons, if_neg he]
      rw [show ts.map _ = updateT ts pid f from rfl, sumT_cons, sumT_cons, ih hnd.2 hl]
      ring

theorem argmax_foldl_mem (l : Targets) :
    ∀ e : ℕ × ℤ, l.foldl (fun best x => if best.2 < x.2 then x else best) e ∈ e :: l := by
  induction l with
  | nil => intro e; simp
  | cons x l ih =>
    intro e
    rw [List.foldl_cons]
    rcases List.mem_cons.mp (ih (if e.2 < x.2 then x else e)) with h1 | h1
    · rw [h1]
      by_cases hc : e.2 < x.2
      · rw [if_pos hc]
        exact List.mem_cons_of_mem e (List.mem_cons_self x l)
      · rw [if_neg hc]
        exact List.mem_cons_self e _
    · exact List.mem_cons_of_mem e (List.mem_cons_of_mem x h1)

theorem argmaxKey_mem {ts : Targets} (h : ts ≠ []) : argmaxKey ts ∈ keysT ts := by
  cases ts with
  | nil => exact absurd rfl h
  | cons e ts => exact List.mem_map_of_mem Prod.fst (argmax_foldl_mem ts e)

theorem keysT_finalCorrect (ts : Targets) (gap : ℤ) :
    keysT (finalCorrect ts gap) = keysT ts := by
  unfold finalCorrect
  by_cases hg : gap = 0
  · rw [if_pos hg]
  · rw [if_neg hg]; exact keysT_updateT ts _ _

/-- Phase 4 restores exact conservation: whatever the sum of the targets
after phases 1–3, adding the gap to the single largest target makes the
grand total equal `T`. -/
theorem sumT_finalCorrect {ts : Targets} (T : ℤ) (hne : ts ≠ [])
    (hnd : (keysT ts).Nodup) : sumT (finalCorrect ts (T - sumT ts)) = T := by
  unfold finalCorrect
  by_cases hg : T - sumT ts = 0
  · rw [if_pos hg]; omega
  · rw [if_neg hg]
    obtain ⟨t, hl, _⟩ := lookupT_some_of_mem (argmaxKey_mem hne)
    rw [sumT_updateT _ hnd hl]
    ring

/-! ### The pledge phases preserve the key set and succeed on valid input -/

theorem keysT_redistribute (ts1 : Targets) (pid : ℕ) (s : ℤ) :
    keysT (redistribute ts1 pid s) = keysT ts1 := by
  refine keysT_map_of_fst ts1 _ fun e => ?_
  by_cases h : e.1 = pid <;> simp [h]

theorem keysT_initTargets (ps : List ℕ) (base : ℤ) (r : ℕ) :
    keysT (initTargets ps base r) = ps := by
  induction ps generalizing r with
  | nil => rfl
  | cons p ps ih =>
    cases r with
    | zero => simp only [initTargets, keysT_cons, ih]
    | succ r => simp only [initTargets, keysT_cons, ih]

theorem applyOverpay_ok {ts : Targets} {v : Pledge} (h : v.participant_id ∈ keysT ts) :
    ∃ ts2, applyOverpay ts v = .ok ts2 ∧ keysT ts2 = keysT ts := by
  obtain ⟨t, hl, _⟩ := lookupT_some_of_mem h
  exact ⟨_, by rw [applyOverpay, hl], keysT_updateT ts _ _⟩

theorem applyBid_ok {ts : Targets} {b : Pledge} (h : b.participant_id ∈ keysT ts) :
    ∃ ts2, applyBid ts b = .ok ts2 ∧ keysT ts2 = keysT ts := by
  obtain ⟨t, hl, _⟩ := lookupT_some_of_mem h
  by_cases hs : bidShortfall t b ≤ 0
  · exact ⟨ts, by rw [applyBid, hl]; simp only [if_pos hs], rfl⟩
  · refine ⟨_, by rw [applyBid, hl]; simp only [if_neg hs]; rfl, ?_⟩
    rw [keysT_redistribute, keysT_updateT]

theorem foldlM_keys_ok {α : Type} (step : Targets → α → Except Err Targets)
    (K : List ℕ) (l : List α)
    (hstep : ∀ ts a, a ∈ l → keysT ts = K → ∃ ts2, step ts a = .ok ts2 ∧ keysT ts2 = K) :
    ∀ ts, keysT ts = K → ∃ ts2, l.foldlM step ts = .ok ts2 ∧ keysT ts2 = K := by
  induction l with
  | nil => exact fun ts h => ⟨ts, rfl, h⟩
  | cons a l ih =>
    intro ts h
    obtain ⟨ts1, hs, hk⟩ := hstep ts a (List.mem_cons_self a l) h
    obtain ⟨ts2, hf, hk2⟩ :=
      ih (fun ts b hb hkk => hstep ts b (List.mem_cons_of_mem a hb) hkk) ts1 hk
    refine ⟨ts2, ?_, hk2⟩
    rw [List.foldlM_cons, hs]
    exact hf

/-- The engine's success and conservation: with at least one participant and
every active pledge referencing a known participant, the run returns a map
keyed exactly by the participants; when the participants are distinct (as
the participant store guarantees) its values sum to the total in cents. -/
theorem allocationCents_spec (total : ℚ) (parts : List ℕ) (pledges : List Pledge)
    (hne : parts ≠ [])
    (href : ∀ p ∈ pledges, p.active = true → p.participant_id ∈ parts) :
    ∃ m, allocationCents total parts pledges = .ok m ∧ keysT m = parts ∧
      (parts.Nodup → sumT m = cents total) := by
  have hvstep : ∀ ts a, a ∈ vopsOf pledges → keysT ts = parts →
      ∃ ts2, applyOverpay ts a = .ok ts2 ∧ keysT ts2 = parts := by
    intro ts a ha hk
    have hm := List.mem_filter.mp ha
    have hact : a.active = true := (Bool.and_eq_true _ _ |>.mp hm.2).2
    have hpid : a.participant_id ∈ keysT ts := by
      rw [hk]; exact href a hm.1 hact
    obtain ⟨ts2, h1, h2⟩ := applyOverpay_ok hpid
    exact ⟨ts2, h1, by rw [h2, hk]⟩
  have hbstep : ∀ ts a, a ∈ bidsOf pledges → keysT ts = parts →
      ∃ ts2, applyBid ts a = .ok ts2 ∧ keysT ts2 = parts := by
    intro ts a ha hk
    have hm := List.mem_filter.mp ha
    have hact : a.active = true := (Bool.and_eq_true _ _ |>.mp hm.2).2
    have hpid : a.participant_id ∈ keysT ts := by
      rw [hk]; exact href a hm.1 hact
    obtain ⟨ts2, h1, h2⟩ := applyBid_ok hpid
    exact ⟨ts2, h1, by rw [h2, hk]⟩
  obtain ⟨ts1, hf1, hk1⟩ := foldlM_keys_ok applyOverpay parts (vopsOf pledges) hvstep
    (initTargets parts (Int.fdiv (cents total) parts.length)
      ((cents total - Int.fdiv (cents total) parts.length * parts.length).toNat))
    (keysT_initTargets parts _ _)
  obtain ⟨ts2, hf2, hk2⟩ := foldlM_keys_ok applyBid parts (bidsOf pledges) hbstep ts1 hk1
  have hne2 : ts2 ≠ [] := by
    intro hc
    rw [hc] at hk2
    exact hne hk2.symm
  have halloc : allocationCents total parts pledges =
      .ok (finalCorrect ts2 (cents total - sumT ts2)) := by
    cases parts with
    | nil => exact absurd rfl hne
    | cons p0 ps =>
      show allocPhases (cents total) (p0 :: ps) pledges = _
      rw [allocPhases, hf1]
      dsimp only
      rw [hf2]
  refine ⟨finalCorrect ts2 (cents total - sumT ts2), halloc, ?_, fun hnd => ?_⟩
  · rw [keysT_finalCorrect, hk2]
  · exact sumT_finalCorrect (cents total) hne2 (by rw [hk2]; exact hnd)

/-! ### Concrete pledges used in the claim instances -/

/-- A fixed volunteer-overpay pledge of 0.50 (50 cents) on participant 1. -/
def ovpFixed50 : Pledge := ⟨1, .volunteerOverpay, some .fixed, 1/2, true⟩

/-- A percent underpay bid of 50% on participant 1. -/
def bidPct50 : Pledge := ⟨1, .underpayBid, some .percent, 50, true⟩

/-- A percent underpay bid of 200% on participant 1. -/
def bidPct200 : Pledge := ⟨1, .underpayBid, some .percent, 200, true⟩

/-- A percent underpay bid of −50% on participant 1. -/
def bidPctNeg50 : Pledge := ⟨1, .underpayBid, some .percent, -50, true⟩

/-- A fixed underpay bid of 0.40 (40 cents) on participant 1. -/
def bidFixed40 : Pledge := ⟨1, .underpayBid, some .fixed, 2/5, true⟩

/-- A fixed underpay bid of 1.00 (100 cents) on participant 1. -/
def bidFixed100 : Pledge := ⟨1, .underpayBid, some .fixed, 1, true⟩

/-! ### Claim theorems -/

/-- C1: for every input with at least one participant, where every active
pledge references a participant in the given (deduplicated, per §6)
collection, the values of the mapping returned by `compute_allocations`
sum to the total in cents exactly, for all pledge combinations including
zero pledges. -/
theorem allocations_conserve_total (total : ℚ) (parts : List ℕ) (pledges : List Pledge)
    (hne : parts ≠ []) (hnd : parts.Nodup)
    (href : ∀ p ∈ pledges, p.active = true → p.participant_id ∈ parts) :
    ∃ m, allocationCents total parts pledges = .ok m ∧ sumT m = cents total := by
  obtain ⟨m, h1, _, h3⟩ := allocationCents_spec total parts pledges hne href
  exact ⟨m, h1, h3 hnd⟩

/-- Witness for C1: total 3.00, participants `[1, 2]`, one active fixed
underpay bid of 0.40 on participant 1; the result sums to 300 cents. -/
theorem allocations_conserve_total_witness :
    ∃ m, allocationCents 3 [1, 2] [bidFixed40] = .ok m ∧ sumT m = 300 := by
  obtain ⟨m, h1, h2⟩ := allocations_conserve_total 3 [1, 2] [bidFixed40]
    (by decide) (by decide) (by decide)
  exact ⟨m, h1, h2.trans (by with_unfolding_all decide)⟩

/-- C2 counterexample: total 3.00, participants `[1, 2, 3]`, one active
fixed volunteer-overpay of 0.50 on participant 1.  The claimed output
`{1 ↦ 150, 2 ↦ 100, 3 ↦ 100}` is NOT what the code returns. -/
theorem overpay_not_rebalanced_refuted :
    allocationCents 3 [1, 2, 3] [ovpFixed50] ≠ .ok [(1, 150), (2, 100), (3, 100)] := by
  with_unfolding_all decide

/-- C2 amended: the overpay phase does raise participant 1's target to 150,
but the final correction step assigns the whole gap (300 − 350 = −50) to the
largest target — participant 1 — so the returned mapping is
`{1 ↦ 100, 2 ↦ 100, 3 ↦ 100}`: the overpay is cancelled to preserve the
fixed total, not left additive on top. -/
theorem overpay_canceled_by_final_correction :
    (vopsOf [ovpFixed50]).foldlM applyOverpay (initTargets [1, 2, 3] 100 0) =
        .ok [(1, 150), (2, 100), (3, 100)] ∧
      allocationCents 3 [1, 2, 3] [ovpFixed50] = .ok [(1, 100), (2, 100), (3, 100)] := by
  constructor <;> with_unfolding_all decide

/-- C3: total 3.00, participants `[1, 2, 3]`, one active 50% underpay bid on
participant 1: the 50-cent shortfall is redistributed proportionally, 25
cents each to participants 2 and 3, and the sum remains 300. -/
theorem percent_underpay_redistribution :
    allocationCents 3 [1, 2, 3] [bidPct50] = .ok [(1, 50), (2, 125), (3, 125)] ∧
      sumT [(1, 50), (2, 125), (3, 125)] = 300 := by
  constructor <;> with_unfolding_all decide

/-- C7: with an empty participant collection the engine returns an empty
mapping for every total and every pledge collection — no error, and the
division by the participant count is never reached. -/
theorem empty_participants_empty_result (total : ℚ) (pledges : List Pledge) :
    allocationCents total [] pledges = .ok [] ∧
      compute_allocations total [] pledges = .ok [] :=
  ⟨rfl, rfl⟩

/-- C9: the engine is a pure function of its inputs — two calls with the
same total, the same participant sequence and the same pledge list return
identical mappings (both in cents and after display conversion). -/
theorem compute_allocations_deterministic (total : ℚ) (parts : List ℕ)
    (pledges : List Pledge) :
    compute_allocations total parts pledges = compute_allocations total parts pledges ∧
      allocationCents total parts pledges = allocationCents total parts pledges :=
  ⟨rfl, rfl⟩

/-! ### Bounds for the Python rounding function -/

theorem ratFloor_le (q : ℚ) : (ratFloor q : ℚ) ≤ q := by
  have hd : (0 : ℤ) < (q.den : ℤ) := by exact_mod_cast q.pos
  have hspec := Int.fdiv_add_fmod q.num q.den
  have hnn := Int.fmod_nonneg' q.num hd
  have h1 : (q.den : ℤ) * ratFloor q ≤ q.num := by
    unfold ratFloor; linarith
  have hdQ : (0 : ℚ) < (q.den : ℚ) := by exact_mod_cast q.pos
  have key : (ratFloor q : ℚ) ≤ (q.num : ℚ) / (q.den : ℚ) := by
    rw [le_div_iff₀ hdQ]
    calc (ratFloor q : ℚ) * q.den = ((q.den * ratFloor q : ℤ) : ℚ) := by push_cast; ring
      _ ≤ (q.num : ℚ) := by exact_mod_cast h1
  rwa [Rat.num_div_den q] at key

theorem lt_ratFloor_add_one (q : ℚ) : q < ratFloor q + 1 := by
  have hd : (0 : ℤ) < (q.den : ℤ) := by exact_mod_cast q.pos
  have hspec := Int.fdiv_add_fmod q.num q.den
  have hlt := Int.fmod_lt_of_pos q.num hd
  have h1 : q.num < (q.den : ℤ) * (ratFloor q + 1) := by
    have hr : (q.den : ℤ) * (ratFloor q + 1) = q.den * ratFloor q + q.den := by ring
    unfold ratFloor
    unfold ratFloor at hr
    linarith
  have hdQ : (0 : ℚ) < (q.den : ℚ) := by exact_mod_cast q.pos
  have key : (q.num : ℚ) / (q.den : ℚ) < (ratFloor q : ℚ) + 1 := by
    rw [div_lt_iff₀ hdQ]
    calc (q.num : ℚ) < ((q.den * (ratFloor q + 1) : ℤ) : ℚ) := by exact_mod_cast h1
      _ = ((ratFloor q : ℚ) + 1) * q.den := by push_cast; ring
  rwa [Rat.num_div_den q] at key

/-- `round` never exceeds an integer bound that the argument respects. -/
theorem pyRound_le_of_le {q : ℚ} {t : ℤ} (h : q ≤ t) : pyRound q ≤ t := by
  unfold pyRound
  have hf : (ratFloor q : ℚ) ≤ q := ratFloor_le q
  have hfle : ratFloor q ≤ t := by exact_mod_cast hf.trans h
  by_cases h1 : q - ratFloor q < 1/2
  · rw [if_pos h1]; exact hfle
  · rw [if_neg h1]
    have hlt : (ratFloor q : ℚ) < q := by
      have h2 : (1 : ℚ)/2 ≤ q - ratFloor q := not_lt.mp h1
      linarith
    have hflt : ratFloor q < t := by exact_mod_cast hlt.trans_le h
    by_cases h2 : (1 : ℚ)/2 < q - ratFloor q
    · rw [if_pos h2]; omega
    · rw [if_neg h2]
      by_cases h3 : ratFloor q % 2 = 0
      · rw [if_pos h3]; exact hfle
      · rw [if_neg h3]; omega

/-- C5 amended: a fixed underpay shortfall equals
`min(value_in_cents, current_target)` and its subtraction never pushes the
bidder's target below zero; for a percent bid the same holds provided the
percentage is at most 100 and the current target is nonnegative (the claim
fails without that proviso, see the counterexample). -/
theorem underpay_shortfall_clamped (t : ℤ) (b : Pledge) :
    (b.value_type = some ValueType.fixed →
      bidShortfall t b = min (cents b.value) t ∧ 0 ≤ t - bidShortfall t b) ∧
    (b.value_type = some ValueType.percent → b.value ≤ 100 → 0 ≤ t →
      0 ≤ t - bidShortfall t b) := by
  constructor
  · intro hvt
    have hs : bidShortfall t b = min (cents b.value) t := by rw [bidShortfall, hvt]
    exact ⟨hs, by rw [hs]; omega⟩
  · intro hvt hv ht
    have hs : bidShortfall t b = pyRound ((t : ℚ) * b.value / 100) := by
      rw [bidShortfall, hvt]
    have ht0 : (0 : ℚ) ≤ (t : ℚ) := by exact_mod_cast ht
    have hq : (t : ℚ) * b.value / 100 ≤ (t : ℚ) := by
      have h100 : b.value / 100 ≤ 1 := by linarith
      calc (t : ℚ) * b.value / 100 = (t : ℚ) * (b.value / 100) := by ring
        _ ≤ (t : ℚ) * 1 := mul_le_mul_of_nonneg_left h100 ht0
        _ = (t : ℚ) := mul_one _
    have := pyRound_le_of_le hq
    rw [hs]; omega

/-- Witness for C5 amended: a fixed bid of 0.40 against a target of 150
cents, and a 50% bid against a target of 100 cents. -/
theorem underpay_shortfall_clamped_witness :
    bidShortfall 150 bidFixed40 = 40 ∧ 0 ≤ 150 - bidShortfall 150 bidFixed40 ∧
      0 ≤ 100 - bidShortfall 100 bidPct50 := by
  have h1 := (underpay_shortfall_clamped 150 bidFixed40).1 rfl
  have h2 := (underpay_shortfall_clamped 100 bidPct50).2 rfl
    (by with_unfolding_all decide) (by decide)
  exact ⟨h1.1.trans (by with_unfolding_all decide), h1.2, h2⟩

/-- C5 counterexample: an active 200% underpay bid on a 100-cent target has
shortfall 200, so the phase-3 subtraction drives the bidder's target to
−100 before redistribution — and the negative value even survives to the
engine's output. -/
theorem underpay_below_zero_counterexample :
    bidShortfall 100 bidPct200 = 200 ∧ 100 - bidShortfall 100 bidPct200 < 0 ∧
      allocationCents 3 [1, 2, 3] [bidPct200] = .ok [(1, -100), (2, 200), (3, 200)] := by
  refine ⟨?_, ?_, ?_⟩ <;> with_unfolding_all decide

/-- C8 counterexample: an active Percent pledge with a negative value does
not make the engine fail — the bid's shortfall is ≤ 0, the pledge is
skipped, and a complete mapping is returned. -/
theorem negative_percent_no_error_counterexample :
    allocationCents 2 [1, 2] [bidPctNeg50] = .ok [(1, 100), (2, 100)] := by
  with_unfolding_all decide

/-- C8 amended: the engine performs no percentage validation at all — for
every input whose active pledges reference known participants it returns a
full mapping and never an error, no matter how negative or large any
Percent value is. -/
theorem no_percentage_validation (total : ℚ) (parts : List ℕ) (pledges : List Pledge)
    (href : ∀ p ∈ pledges, p.active = true → p.participant_id ∈ parts) :
    ∃ m, allocationCents total parts pledges = .ok m := by
  by_cases hne : parts = []
  · subst hne; exact ⟨[], rfl⟩
  · obtain ⟨m, h1, _, _⟩ := allocationCents_spec total parts pledges hne href
    exact ⟨m, h1⟩

/-- Witness for C8 amended: both a −50% underpay bid and a −50% volunteer
overpay are processed without any error. -/
theorem no_percentage_validation_witness :
    ∃ m, allocationCents 2 [1, 2]
      [bidPctNeg50, ⟨1, .volunteerOverpay, some .percent, -50, true⟩] = .ok m :=
  no_percentage_validation 2 [1, 2] _ (by decide)

/-! ### The equal base split (phase 1) -/

theorem ratFloor_intCast (n : ℤ) : ratFloor (n : ℚ) = n := by
  unfold ratFloor
  rw [Rat.num_intCast, Rat.den_intCast]
  simp [Int.fdiv_one]

theorem pyRound_intCast (n : ℤ) : pyRound (n : ℚ) = n := by
  unfold pyRound
  simp only [ratFloor_intCast, sub_self]
  norm_num

/-- A total of `T` cents enters the engine as the decimal `T/100`; the
boundary conversion `cents` recovers exactly `T`. -/
theorem cents_div_hundred (T : ℤ) : cents ((T : ℚ)/100) = T := by
  unfold cents
  rw [div_mul_cancel₀ _ (by norm_num : (100 : ℚ) ≠ 0)]
  exact pyRound_intCast T

theorem sumT_initTargets (ps : List ℕ) (base : ℤ) (r : ℕ) :
    sumT (initTargets ps base r) = base * (ps.length : ℤ) + ((min r ps.length : ℕ) : ℤ) := by
  induction ps generalizing r with
  | nil => simp [initTargets, sumT_nil]
  | cons p ps ih =>
    cases r with
    | zero =>
      rw [initTargets, sumT_cons, ih 0]
      simp only [Nat.zero_min, List.length_cons]
      push_cast
      ring
    | succ r =>
      rw [initTargets, sumT_cons, ih r, List.length_cons, Nat.succ_min_succ]
      push_cast
      ring

/-- `initTargets` written positionally: participant `i` (0-based, in the
given order) gets `base + 1` when `i < r` and `base` otherwise. -/
theorem initTargets_eq_enum (ps : List ℕ) (base : ℤ) (r : ℕ) :
    initTargets ps base r =
      ps.enum.map fun ip => (ip.2, if ip.1 < r then base + 1 else base) := by
  induction ps generalizing r with
  | nil => rfl
  | cons p ps ih =>
    rw [List.enum_cons', List.map_cons, List.map_map]
    cases r with
    | zero =>
      show (p, base) :: initTargets ps base 0 = _
      refine List.cons_eq_cons.mpr ⟨by simp, ?_⟩
      rw [ih 0]
      refine List.map_congr_left fun ip _ => ?_
      simp [Function.comp]
    | succ r =>
      show (p, base + 1) :: initTargets ps base r = _
      refine List.cons_eq_cons.mpr ⟨by simp, ?_⟩
      rw [ih r]
      refine List.map_congr_left fun ip _ => ?_
      rcases ip with ⟨i, x⟩
      simp [Function.comp, Prod.map, Nat.add_lt_add_iff_right]

theorem pure_eq_ok (x : Targets) : (pure x : Except Err Targets) = Except.ok x := rfl

/-- C4: with no active overpay or underpay pledges, the result is exactly
the equal base split: every participant gets `T div N` cents and the first
`T - (T div N) * N` participants in the given order get one extra cent.
(`hnd` is the participant store's dedup contract, §6: the association list
models the Python dict only for distinct participant ids.) -/
theorem equal_split_no_pledges (T : ℤ) (parts : List ℕ) (pledges : List Pledge)
    (hne : parts ≠ []) (hnd : parts.Nodup)
    (hpl : ∀ p ∈ pledges, p.active = true → p.kind = PledgeKind.equal) :
    allocationCents ((T : ℚ)/100) parts pledges =
      .ok (parts.enum.map fun ip =>
        (ip.2, if ip.1 < (T - Int.fdiv T parts.length * parts.length).toNat
          then Int.fdiv T parts.length + 1 else Int.fdiv T parts.length)) := by
  have hv : vopsOf pledges = [] := by
    rw [vopsOf, List.filter_eq_nil_iff]
    intro p hp
    simp only [Bool.and_eq_true, decide_eq_true_eq, not_and]
    intro hk hact
    rw [hpl p hp hact] at hk
    exact PledgeKind.noConfusion hk
  have hb : bidsOf pledges = [] := by
    rw [bidsOf, List.filter_eq_nil_iff]
    intro p hp
    simp only [Bool.and_eq_true, decide_eq_true_eq, not_and]
    intro hk hact
    rw [hpl p hp hact] at hk
    exact PledgeKind.noConfusion hk
  cases parts with
  | nil => exact absurd rfl hne
  | cons p0 ps =>
    show allocPhases (cents ((T : ℚ)/100)) (p0 :: ps) pledges = _
    rw [cents_div_hundred, allocPhases, hv, hb, List.foldlM_nil, pure_eq_ok]
    dsimp only
    rw [List.foldlM_nil, pure_eq_ok]
    dsimp only
    have hN : (0 : ℤ) < ((p0 :: ps).length : ℤ) := by
      simp only [List.length_cons]
      positivity
    have hfd := Int.fdiv_add_fmod T ((p0 :: ps).length : ℤ)
    have hnn := Int.fmod_nonneg' T hN
    have hlt := Int.fmod_lt_of_pos T hN
    have hcomm : ((p0 :: ps).length : ℤ) * Int.fdiv T ((p0 :: ps).length : ℤ) =
        Int.fdiv T ((p0 :: ps).length : ℤ) * ((p0 :: ps).length : ℤ) := by ring
    have hsum : sumT (initTargets (p0 :: ps) (Int.fdiv T ((p0 :: ps).length : ℤ))
        ((T - Int.fdiv T ((p0 :: ps).length : ℤ) * ((p0 :: ps).length : ℤ)).toNat)) = T := by
      rw [sumT_initTargets]
      omega
    rw [hsum, sub_self, finalCorrect, if_pos rfl, initTargets_eq_enum]

/-- Witness for C4: 100 cents among three participants with no pledges gives
`{34, 33, 33}` in order — the first participant absorbs the extra cent. -/
theorem equal_split_no_pledges_witness :
    allocationCents ((100 : ℤ)/100 : ℚ) [1, 2, 3] [] = .ok [(1, 34), (2, 33), (3, 33)] := by
  have h := equal_split_no_pledges 100 [1, 2, 3] [] (by decide) (by decide)
    (by intro p hp; simp at hp)
  rw [show (((100 : ℤ) : ℚ)/100) = ((100 : ℤ)/100 : ℚ) from by norm_num] at h
  rw [h]
  with_unfolding_all decide

/-! ### Equal pledges are inert -/

/-- C10: pledges of kind Equal never affect the result — the engine returns
the same mapping whether the Equal pledges (of any value type, value or
active flag) are present in the pledge collection or removed from it. -/
theorem equal_pledges_no_effect (total : ℚ) (parts : List ℕ) (pledges : List Pledge) :
    allocationCents total parts
        (pledges.filter fun p => decide (p.kind ≠ PledgeKind.equal)) =
      allocationCents total parts pledges ∧
    compute_allocations total parts
        (pledges.filter fun p => decide (p.kind ≠ PledgeKind.equal)) =
      compute_allocations total parts pledges := by
  have hv : vopsOf (pledges.filter fun p => decide (p.kind ≠ PledgeKind.equal)) =
      vopsOf pledges := by
    rw [vopsOf, vopsOf, List.filter_filter]
    refine List.filter_congr fun p _ => ?_
    cases hk : p.kind <;> simp [hk]
  have hb : bidsOf (pledges.filter fun p => decide (p.kind ≠ PledgeKind.equal)) =
      bidsOf pledges := by
    rw [bidsOf, bidsOf, List.filter_filter]
    refine List.filter_congr fun p _ => ?_
    cases hk : p.kind <;> simp [hk]
  have hcents : allocationCents total parts
      (pledges.filter fun p => decide (p.kind ≠ PledgeKind.equal)) =
      allocationCents total parts pledges := by
    cases parts with
    | nil => rfl
    | cons p0 ps =>
      show allocPhases _ _ _ = allocPhases _ _ _
      rw [allocPhases, allocPhases, hv, hb]
  exact ⟨hcents, by rw [compute_allocations, compute_allocations, hcents]⟩

/-! ### The leftover cents of a redistribution go largest-target-first -/

theorem insertDesc_perm (e : ℕ × ℤ) (l : Targets) :
    List.Perm (insertDesc e l) (e :: l) := by
  induction l with
  | nil => exact List.Perm.refl _
  | cons x xs ih =>
    rw [insertDesc]
    by_cases h : x.2 ≤ e.2
    · rw [if_pos h]
    · rw [if_neg h]
      exact (List.Perm.cons x ih).trans (List.Perm.swap e x xs)

theorem sortDesc_perm (l : Targets) : List.Perm (sortDesc l) l := by
  induction l with
  | nil => exact List.Perm.refl _
  | cons e xs ih => exact (insertDesc_perm e (sortDesc xs)).trans (List.Perm.cons e ih)

theorem insertDesc_sorted (e : ℕ × ℤ) {l : Targets}
    (h : l.Pairwise fun a b => b.2 ≤ a.2) :
    (insertDesc e l).Pairwise fun a b => b.2 ≤ a.2 := by
  induction l with
  | nil => simp [insertDesc]
  | cons x xs ih =>
    rw [List.pairwise_cons] at h
    rw [insertDesc]
    by_cases hc : x.2 ≤ e.2
    · rw [if_pos hc]
      refine List.Pairwise.cons ?_ (List.Pairwise.cons h.1 h.2)
      intro y hy
      rcases List.mem_cons.mp hy with rfl | hy2
      · exact hc
      · exact (h.1 y hy2).trans hc
    · rw [if_neg hc]
      refine List.Pairwise.cons ?_ (ih h.2)
      intro y hy
      rcases List.mem_cons.mp ((insertDesc_perm e xs).mem_iff.mp hy) with rfl | hy2
      · exact le_of_lt (lt_of_not_le hc)
      · exact h.1 y hy2

theorem sortDesc_sorted (l : Targets) :
    (sortDesc l).Pairwise fun a b => b.2 ≤ a.2 := by
  induction l with
  | nil => simp [sortDesc]
  | cons e xs ih => exact insertDesc_sorted e ih

/-- In a target map with distinct keys, an entry is determined by its key. -/
theorem eq_of_mem_keys_nodup {o : Targets} (hnd : (keysT o).Nodup)
    {a b : ℕ × ℤ} (ha : a ∈ o) (hb : b ∈ o) (hab : a.1 = b.1) : a = b := by
  induction o with
  | nil => cases ha
  | cons x xs ih =>
    rw [keysT_cons, List.nodup_cons] at hnd
    rcases List.mem_cons.mp ha with rfl | ha2
    · rcases List.mem_cons.mp hb with rfl | hb2
      · rfl
      · exact absurd (hab ▸ List.mem_map_of_mem Prod.fst hb2) hnd.1
    · rcases List.mem_cons.mp hb with rfl | hb2
      · exact absurd (hab ▸ List.mem_map_of_mem Prod.fst ha2) hnd.1
      · exact ih hnd.2 ha2 hb2

theorem keysT_othersOf_nodup {ts1 : Targets} (pid : ℕ) (hnd : (keysT ts1).Nodup) :
    (keysT (othersOf ts1 pid)).Nodup :=
  hnd.sublist ((List.filter_sublist ts1).map Prod.fst)

/-- C6: when the proportional floor division under-distributes, the pledge
step hands the leftover cents one each to the other participants with the
largest current targets — every recipient's current target is at least every
non-recipient's, and the number of cents handed out is the leftover (capped
by the number of other participants); the engine's final output still sums
to the total exactly. -/
theorem leftover_cents_to_largest_targets (ts1 : Targets) (pid : ℕ) (s : ℤ)
    (hnd : (keysT ts1).Nodup)
    (hleft : 0 < s - distributedOf (othersOf ts1 pid) s) :
    (∀ p ∈ othersOf ts1 pid, p.1 ∈ bonusOf ts1 pid s →
      ∀ q ∈ othersOf ts1 pid, q.1 ∉ bonusOf ts1 pid s → q.2 ≤ p.2) ∧
    (bonusOf ts1 pid s).length =
      min (s - distributedOf (othersOf ts1 pid) s).toNat (othersOf ts1 pid).length ∧
    (∀ (total : ℚ) (parts : List ℕ) (pledges : List Pledge),
      parts ≠ [] → parts.Nodup →
      (∀ p ∈ pledges, p.active = true → p.participant_id ∈ parts) →
      ∃ m, allocationCents total parts pledges = .ok m ∧ sumT m = cents total) := by
  refine ⟨?_, ?_, ?_⟩
  · intro p hp hpb q hq hqb
    have hond : (keysT (othersOf ts1 pid)).Nodup := keysT_othersOf_nodup pid hnd
    rw [bonusOf] at hpb hqb
    obtain ⟨p2, hp2take, hp2fst⟩ := List.mem_map.mp hpb
    have hp2o : p2 ∈ othersOf ts1 pid :=
      (sortDesc_perm _).mem_iff.mp (List.mem_of_mem_take hp2take)
    have hpp2 : p2 = p := eq_of_mem_keys_nodup hond hp2o hp hp2fst
    have hqL : q ∈ sortDesc (othersOf ts1 pid) := (sortDesc_perm _).mem_iff.mpr hq
    rw [← List.take_append_drop
      (s - distributedOf (othersOf ts1 pid) s).toNat (sortDesc (othersOf ts1 pid))] at hqL
    have hqdrop : q ∈ (sortDesc (othersOf ts1 pid)).drop
        (s - distributedOf (othersOf ts1 pid) s).toNat := by
      rcases List.mem_append.mp hqL with h | h
      · exact absurd (List.mem_map_of_mem Prod.fst h) hqb
      · exact h
    have hsorted := sortDesc_sorted (othersOf ts1 pid)
    rw [← List.take_append_drop
      (s - distributedOf (othersOf ts1 pid) s).toNat (sortDesc (othersOf ts1 pid))] at hsorted
    have hle := (List.pairwise_append.mp hsorted).2.2 p2 hp2take q hqdrop
    rw [hpp2] at hle
    exact hle
  · rw [bonusOf, List.length_map, List.length_take, (sortDesc_perm _).length_eq]
  · intro total parts pledges hne hnd2 href
    obtain ⟨m, h1, _, h3⟩ := allocationCents_spec total parts pledges hne href
    exact ⟨m, h1, h3 hnd2⟩

/-- Witness for C6: after participant 1's fixed bid of 1.00 is subtracted
(state `[(1,0),(2,100),(3,100),(4,100)]`, shortfall 100), the floor division
gives 33 to each of 2, 3, 4 (denominator 300), leaving 1 cent, which lands
on participant 2 — first of the tied largest targets; the corresponding
full run `total 4.00, participants [1,2,3,4]` conserves the 400 cents. -/
theorem leftover_cents_to_largest_targets_witness :
    (∀ p ∈ othersOf [(1,0),(2,100),(3,100),(4,100)] 1,
      p.1 ∈ bonusOf [(1,0),(2,100),(3,100),(4,100)] 1 100 →
      ∀ q ∈ othersOf [(1,0),(2,100),(3,100),(4,100)] 1,
      q.1 ∉ bonusOf [(1,0),(2,100),(3,100),(4,100)] 1 100 → q.2 ≤ p.2) ∧
    ∃ m, allocationCents 4 [1, 2, 3, 4] [bidFixed100] = .ok m ∧ sumT m = cents 4 := by
  have h := leftover_cents_to_largest_targets [(1,0),(2,100),(3,100),(4,100)] 1 100
    (by decide) (by decide)
  exact ⟨h.1, h.2.2 4 [1, 2, 3, 4] [bidFixed100] (by decide) (by decide) (by decide)⟩

end ExpenseCalc
